import Mathlib

/-!
Verification of the FRCAnimations repository: a shallow embedding of the
tokenizer and fuzzy matcher of `build.py`, the tangency geometry of
`rc_lib/design/sketch.py`, and the argument check of
`rc_lib/design/constraint.py`, together with theorems settling the spec's
claims about them.
-/

namespace Build

/-- Models the character class of `split_regex = "A-Z_/\\\\"` in `build.py`
(line 28): ASCII uppercase letters and the separators underscore, forward
slash and backslash.  Python's `[A-Z]` on a `str` matches exactly the ASCII
range, as does Lean's `Char.isUpper`. -/
def isBoundary (c : Char) : Bool :=
  c.isUpper || c == '_' || c == '/' || c == '\\'

/-- Single left-to-right scan computing the `matches` list built by
`split_tokens` in `build.py` (lines 136-144): the first element is the match
of `re.search("[^A-Z_/\\]*", input)` (the maximal, possibly empty, run of
non-boundary characters at the start), and the remaining elements are the
matches of `re.findall("[A-Z_/\\][^A-Z_/\\]*", input)` (each boundary
character together with the following run of non-boundary characters).
`acc` holds the current run reversed; a boundary character closes the
current run and opens a new one. -/
def splitAux : List Char → List Char → List (List Char)
  | [], acc => [acc.reverse]
  | c :: rest, acc =>
    if isBoundary c then acc.reverse :: splitAux rest [c]
    else splitAux rest (c :: acc)

/-- The `matches` list of `split_tokens`, at the level of character lists. -/
def split_tokens_data (l : List Char) : List (List Char) :=
  splitAux l []

/-- The `matches` list of `split_tokens`, as strings. -/
def split_tokens_matches (s : String) : List String :=
  (split_tokens_data s.data).map (fun t => String.mk t)

/-- Models `" ".join(matches)`: the tokens joined by single spaces. -/
def joinTokens : List (List Char) → List Char
  | [] => []
  | [t] => t
  | t :: rest => t ++ ' ' :: joinTokens rest

/-- `split_tokens` from `build.py` (lines 136-144): the matches list joined
by single spaces. -/
def split_tokens (s : String) : String :=
  String.mk (joinTokens (split_tokens_data s.data))

lemma data_mk (l : List Char) : (String.mk l).data = l := rfl

lemma string_eq_of_data {a b : String} (h : a.data = b.data) : a = b :=
  congrArg String.mk h

lemma map_data_mk (L : List (List Char)) :
    (L.map (fun t => String.mk t)).map String.data = L := by
  induction L with
  | nil => rfl
  | cons t ts ih => simp only [List.map_cons, data_mk, ih]

lemma splitAux_flatten (l : List Char) :
    ∀ acc, (splitAux l acc).flatten = acc.reverse ++ l := by
  induction l with
  | nil => intro acc; simp [splitAux]
  | cons c rest ih =>
    intro acc
    by_cases h : isBoundary c
    · simp [splitAux, h, ih]
    · simp [splitAux, h, ih]

lemma splitAux_no_boundary (l : List Char) :
    ∀ acc, (∀ c ∈ l, isBoundary c = false) → splitAux l acc = [acc.reverse ++ l] := by
  induction l with
  | nil => intro acc _; simp [splitAux]
  | cons c rest ih =>
    intro acc h
    have hc : isBoundary c = false := h c (by simp)
    have hrest : ∀ c ∈ rest, isBoundary c = false := fun x hx => h x (by simp [hx])
    simp [splitAux, hc, ih (c :: acc) hrest]

lemma foldl_append_data (L : List String) :
    ∀ a : String, (L.foldl (· ++ ·) a).data = a.data ++ (L.map String.data).flatten := by
  induction L with
  | nil => intro a; simp
  | cons t ts ih =>
    intro a
    have hdata : (a ++ t).data = a.data ++ t.data := rfl
    simp [List.foldl, ih, hdata]

/-- C3: `split_tokens` is a total function over arbitrary strings (it is a
plain Lean function), the string it returns is the matches list joined by
single spaces, and the concatenation of the matches themselves (the join
ignoring the inserted spaces) reconstructs the input exactly, with no
characters dropped or duplicated. -/
theorem split_tokens_reconstructs (s : String) :
    split_tokens s = String.mk (joinTokens ((split_tokens_matches s).map String.data)) ∧
    String.join (split_tokens_matches s) = s := by
  constructor
  · rw [split_tokens_matches, map_data_mk]; rfl
  · apply string_eq_of_data
    have h1 : ((split_tokens_matches s).map String.data) = split_tokens_data s.data :=
      map_data_mk _
    have h2 : (String.join (split_tokens_matches s)).data
        = ((split_tokens_matches s).map String.data).flatten := by
      simp [String.join, foldl_append_data]
    rw [h2, h1, split_tokens_data, splitAux_flatten]
    simp

/-- C5 (amended): `split_tokens` begins a new token at every uppercase letter
and at every separator character, keeping the separator (or uppercase letter)
at the start of its token, and prepends the possibly empty run before the
first boundary.  Tokenizing `"CoincidentLine"` therefore yields an empty
leading token followed by `"Coincident"` and `"Line"`; tokenizing `"a/b_c"`
yields `"a"`, `"/b"`, `"_c"`; and any string containing no uppercase letters
or separators is returned unchanged as the sole token. -/
theorem split_tokens_boundary_split (s : String)
    (h : ∀ c ∈ s.data, isBoundary c = false) :
    split_tokens_matches s = [s] ∧
    split_tokens_matches "CoincidentLine" = ["", "Coincident", "Line"] ∧
    split_tokens_matches "a/b_c" = ["a", "/b", "_c"] := by
  refine ⟨?_, by decide, by decide⟩
  simp [split_tokens_matches, split_tokens_data, splitAux_no_boundary _ [] h]

theorem split_tokens_boundary_split_witness :
    (∀ c ∈ ("hello" : String).data, isBoundary c = false) ∧
    (split_tokens_matches "hello" = ["hello"] ∧
     split_tokens_matches "CoincidentLine" = ["", "Coincident", "Line"] ∧
     split_tokens_matches "a/b_c" = ["a", "/b", "_c"]) :=
  ⟨by decide, split_tokens_boundary_split "hello" (by decide)⟩

/-- C5 (counterexample): tokenizing `"CoincidentLine"` does not yield exactly
the tokens `"Coincident"` and `"Line"`: the run before the first boundary is
empty and is still prepended, so the matches list is
`["", "Coincident", "Line"]` and the joined result carries a leading space. -/
theorem split_tokens_leading_empty_token :
    split_tokens_matches "CoincidentLine" ≠ ["Coincident", "Line"] ∧
    split_tokens_matches "CoincidentLine" = ["", "Coincident", "Line"] ∧
    split_tokens "CoincidentLine" = " Coincident Line" := by
  refine ⟨by decide, by decide, by decide⟩

/-- Models the whitespace characters of Python's `str.split()` (used to read
the space-joined token string back as a token list): space, tab, newline,
carriage return, vertical tab and form feed. -/
def isSpaceChar (c : Char) : Bool :=
  c == ' ' || c == '\t' || c == '\n' || c == '\r' || c == '\x0b' || c == '\x0c'

/-- Models splitting a string on runs of whitespace with empty fields
dropped, as Python's `str.split()` does.  `acc` holds the current field
reversed. -/
def pySplitAcc : List Char → List Char → List (List Char)
  | [], acc => if acc = [] then [] else [acc.reverse]
  | c :: rest, acc =>
    if isSpaceChar c then (if acc = [] then [] else [acc.reverse]) ++ pySplitAcc rest []
    else pySplitAcc rest (c :: acc)

/-- Splitting a string on whitespace, dropping empty fields. -/
def pySplit (s : String) : List String :=
  (pySplitAcc s.data []).map (fun t => String.mk t)

lemma pySplitAcc_chunk (t : List Char) (h : ∀ c ∈ t, isSpaceChar c = false) :
    ∀ rest acc, pySplitAcc (t ++ rest) acc = pySplitAcc rest (t.reverse ++ acc) := by
  induction t with
  | nil => intro rest acc; simp
  | cons c cs ih =>
    intro rest acc
    have hc : isSpaceChar c = false := h c (by simp)
    have hcs : ∀ x ∈ cs, isSpaceChar x = false := fun x hx => h x (by simp [hx])
    simp [pySplitAcc, hc, ih hcs rest (c :: acc)]

lemma pySplitAcc_joinTokens (L : List (List Char))
    (h : ∀ t ∈ L, ∀ c ∈ t, isSpaceChar c = false) :
    pySplitAcc (joinTokens L) [] = L.filter (fun t => t ≠ []) := by
  induction L with
  | nil => simp [joinTokens, pySplitAcc]
  | cons t rest ih =>
    have ht : ∀ c ∈ t, isSpaceChar c = false := h t (by simp)
    have hrest : ∀ u ∈ rest, ∀ c ∈ u, isSpaceChar c = false :=
      fun u hu => h u (by simp [hu])
    cases rest with
    | nil =>
      show pySplitAcc (joinTokens [t]) [] = _
      rw [joinTokens]
      rw [show t = t ++ ([] : List Char) by simp, pySplitAcc_chunk t ht [] []]
      by_cases he : t = []
      · simp [he, pySplitAcc]
      · have : t.reverse ++ [] ≠ [] := by simpa using he
        simp [pySplitAcc, this, he]
    | cons u rest' =>
      show pySplitAcc (joinTokens (t :: u :: rest')) [] = _
      have hj : joinTokens (t :: u :: rest') = t ++ ' ' :: joinTokens (u :: rest') := rfl
      rw [hj]
      rw [pySplitAcc_chunk t ht (' ' :: joinTokens (u :: rest')) []]
      have hsp : isSpaceChar ' ' = true := by decide
      rw [pySplitAcc, if_pos hsp]
      rw [ih hrest]
      by_cases he : t = []
      · simp [he]
      · have h1 : t.reverse ++ [] ≠ [] := by simpa using he
        simp [h1, he]

lemma splitAux_tokens_ne_nil (l : List Char) :
    ∀ acc, acc ≠ [] → ∀ t ∈ splitAux l acc, t ≠ [] := by
  induction l with
  | nil =>
    intro acc hacc t ht
    simp [splitAux] at ht
    simpa [ht] using hacc
  | cons c rest ih =>
    intro acc hacc t ht
    by_cases h : isBoundary c
    · simp only [splitAux, if_pos h, List.mem_cons] at ht
      rcases ht with ht | ht
      · simpa [ht] using hacc
      · exact ih [c] (by simp) t ht
    · simp only [splitAux, if_neg h] at ht
      exact ih (c :: acc) (by simp) t ht

lemma splitAux_tokens_boundary_start (l : List Char) :
    ∀ acc₀ c₀, isBoundary c₀ = true →
      ∀ t ∈ splitAux l (acc₀ ++ [c₀]), ∃ c cs, t = c :: cs ∧ isBoundary c = true := by
  induction l with
  | nil =>
    intro acc₀ c₀ hb t ht
    simp [splitAux] at ht
    exact ⟨c₀, acc₀.reverse, by simp [ht], hb⟩
  | cons c rest ih =>
    intro acc₀ c₀ hb t ht
    by_cases h : isBoundary c
    · simp only [splitAux, if_pos h, List.mem_cons] at ht
      rcases ht with ht | ht
      · exact ⟨c₀, acc₀.reverse, by simp [ht], hb⟩
      · have := ih [] c h t (by simpa using ht)
        exact this
    · simp only [splitAux, if_neg h] at ht
      exact ih (c :: acc₀) c₀ hb t (by simpa using ht)

lemma splitAux_token_chars (l : List Char) (acc t : List Char)
    (ht : t ∈ splitAux l acc) : ∀ c ∈ t, c ∈ acc.reverse ++ l := by
  intro c hc
  have : c ∈ (splitAux l acc).flatten := List.mem_flatten.mpr ⟨t, ht, hc⟩
  rwa [splitAux_flatten] at this

/-- C9 (amended): for every input string that begins with an uppercase letter
or a separator character and contains no whitespace characters, the empty
leading token captured by `split_tokens` introduces no spurious token:
splitting the returned space-joined string on whitespace yields exactly the
non-empty tokens of the match list (all of which start with a boundary
character), with no extra tokens. -/
theorem split_tokens_no_spurious (s : String) (c : Char) (cs : List Char)
    (hs : s.data = c :: cs) (hb : isBoundary c = true)
    (hw : ∀ ch ∈ s.data, isSpaceChar ch = false) :
    pySplit (split_tokens s) = (split_tokens_matches s).filter (fun t => t ≠ "") ∧
    ∀ t ∈ pySplit (split_tokens s),
      ∃ c' cs', t = String.mk (c' :: cs') ∧ isBoundary c' = true := by
  have htokchars : ∀ t ∈ split_tokens_data s.data, ∀ ch ∈ t, isSpaceChar ch = false := by
    intro t ht ch hch
    exact hw ch (by simpa using splitAux_token_chars s.data [] t ht ch hch)
  have hmain : pySplitAcc (joinTokens (split_tokens_data s.data)) []
      = (split_tokens_data s.data).filter (fun t => t ≠ []) :=
    pySplitAcc_joinTokens _ htokchars
  have hdata : (split_tokens s).data = joinTokens (split_tokens_data s.data) := rfl
  have hsplit : pySplit (split_tokens s)
      = ((split_tokens_data s.data).filter (fun t => t ≠ [])).map (fun t => String.mk t) := by
    rw [pySplit, hdata, hmain]
  have hstart : ∀ t ∈ (split_tokens_data s.data).filter (fun t => t ≠ []),
      ∃ c' cs', t = c' :: cs' ∧ isBoundary c' = true := by
    intro t ht
    have ht' : t ∈ split_tokens_data s.data := List.mem_of_mem_filter ht
    rw [split_tokens_data, hs, splitAux, if_pos hb] at ht'
    rcases List.mem_cons.mp ht' with h1 | h1
    · have : t ≠ [] := by
        have := List.of_mem_filter ht
        simpa using this
      simp at h1
      exact absurd h1 this
    · exact splitAux_tokens_boundary_start cs [] c hb t (by simpa using h1)
  constructor
  · rw [hsplit, split_tokens_matches]
    have : ((split_tokens_data s.data).map (fun t => String.mk t)).filter (fun t => t ≠ "")
        = ((split_tokens_data s.data).filter (fun t => t ≠ [])).map (fun t => String.mk t) := by
      induction split_tokens_data s.data with
      | nil => rfl
      | cons t ts ih =>
        by_cases he : t = []
        · subst he
          simpa using ih
        · have h1 : (String.mk t : String) ≠ "" := by
            intro hcontra
            exact he (congrArg String.data hcontra)
          simp only [ne_eq, decide_not] at ih
          simp only [List.map_cons, List.filter_cons, ne_eq, decide_not]
          simp [h1, he, ih]
    rw [this]
  · intro t ht
    rw [hsplit] at ht
    rcases List.mem_map.mp ht with ⟨u, hu, hut⟩
    rcases hstart u hu with ⟨c', cs', huc, hbc⟩
    exact ⟨c', cs', by rw [← hut, huc], hbc⟩

theorem split_tokens_no_spurious_witness :
    (("_ab" : String).data = '_' :: ['a', 'b'] ∧ isBoundary '_' = true ∧
      (∀ ch ∈ ("_ab" : String).data, isSpaceChar ch = false)) ∧
    (pySplit (split_tokens "_ab") = (split_tokens_matches "_ab").filter (fun t => t ≠ "") ∧
     ∀ t ∈ pySplit (split_tokens "_ab"),
       ∃ c' cs', t = String.mk (c' :: cs') ∧ isBoundary c' = true) :=
  ⟨⟨by decide, by decide, by decide⟩,
    split_tokens_no_spurious "_ab" '_' ['a', 'b'] (by decide) (by decide) (by decide)⟩

/-- C9 (counterexample): for the input `"_a b"`, which begins with a
separator, splitting the space-joined result on whitespace yields
`["_a", "b"]`, while the non-empty boundary-started runs of the input are
`["_a b"]`: an input containing a space breaks the claimed equality. -/
theorem split_tokens_spurious_on_space :
    pySplit (split_tokens "_a b") = ["_a", "b"] ∧
    (split_tokens_matches "_a b").filter (fun t => t ≠ "") = ["_a b"] ∧
    pySplit (split_tokens "_a b") ≠ (split_tokens_matches "_a b").filter (fun t => t ≠ "") := by
  refine ⟨by decide, by decide, by decide⟩

/-! The fuzzy scorer.  `fuzzy_search` in `build.py` scores candidates with
`thefuzz`'s `fuzz.token_sort_ratio`, an external library.  Modelled from the
spec: both token strings are lowercased with non-alphanumeric characters
treated as whitespace, split into tokens, sorted token-wise, rejoined and
compared by normalized edit similarity on a 0-100 scale. -/

/-- ASCII alphanumeric check used by the scorer's preprocessing. -/
def isAlnum (c : Char) : Bool :=
  c.isAlpha || c.isDigit

/-- Modelled from the spec: the scorer's preprocessing lowercases and
replaces non-alphanumeric characters by spaces. -/
def fullProcess (s : String) : String :=
  String.mk (s.data.map (fun c => if isAlnum c then c.toLower else ' '))

/-- Lexicographic order on character lists by code point, used to sort
tokens. -/
def strLeChars : List Char → List Char → Bool
  | [], _ => true
  | _ :: _, [] => false
  | a :: as, b :: bs =>
    if a.toNat < b.toNat then true
    else if b.toNat < a.toNat then false
    else strLeChars as bs

def strLe (a b : String) : Bool :=
  strLeChars a.data b.data

def insertSorted (x : String) : List String → List String
  | [] => [x]
  | y :: ys => if strLe x y then x :: y :: ys else y :: insertSorted x ys

def sortStrs (l : List String) : List String :=
  l.foldr insertSorted []

/-- One row update of the dynamic-programming Levenshtein distance:
`above :: rest` is the tail of the previous row, `diag` its head, `left`
the freshly computed cell to the left. -/
def levAux (x : Char) : List Char → List Nat → Nat → Nat → List Nat
  | [], _, _, _ => []
  | _ :: _, [], _, _ => []
  | yc :: ys, above :: rest, diag, left =>
    let cell := min (above + 1) (min (left + 1) (diag + (if x = yc then 0 else 1)))
    cell :: levAux x ys rest above cell

def levRow (x : Char) (b : List Char) (prev : List Nat) : List Nat :=
  match prev with
  | [] => []
  | p0 :: rest => (p0 + 1) :: levAux x b rest p0 (p0 + 1)

/-- Levenshtein edit distance, computed row by row. -/
def lev (a b : List Char) : Nat :=
  (a.foldl (fun row x => levRow x b row) (List.range (b.length + 1))).getLastD 0

/-- Modelled from the spec: normalized edit similarity of two strings on a
0-100 scale. -/
def simRatio (a b : String) : Nat :=
  let la := a.data.length
  let lb := b.data.length
  if la + lb = 0 then 100
  else (100 * (la + lb - lev a.data b.data)) / (la + lb)

/-- Modelled from the spec: split the preprocessed string into whitespace
tokens, sort them, and rejoin them with single spaces. -/
def tokenSortNormalize (s : String) : String :=
  String.mk (joinTokens ((sortStrs (pySplit (fullProcess s))).map String.data))

/-- Modelled from the spec: `fuzz.token_sort_ratio` compares the two
token-sorted, preprocessed strings by normalized edit similarity. -/
def token_sort_ratio (a b : String) : Nat :=
  simRatio (tokenSortNormalize a) (tokenSortNormalize b)

/-- Models `thefuzz`'s `process.extractOne` over a dict of candidates: the
dict is a list of `(key, processed value)` pairs in insertion order, every
pair is scored against the query, and the highest-scoring one is returned as
`(value, score, key)` (the first seen wins ties, as Python's `max` keeps the
first maximal element); an empty dict yields `none`. -/
def extractOne (scorer : String → String → Nat) (query : String) :
    List (String × String) → Option (String × Nat × String)
  | [] => none
  | (k, choice) :: rest =>
    some (rest.foldl
      (fun best p =>
        let cand := (p.2, scorer query p.2, p.1)
        if best.2.1 < cand.2.1 then cand else best)
      (choice, scorer query choice, k))

/-- One step of building the Python dict
`dict([(target, split_tokens(target)) for target in targets])`: a repeated
key keeps its first position (and its value, which is determined by the
key). -/
def insertTarget (acc : List (String × String)) (t : String) : List (String × String) :=
  if acc.any (fun p => p.1 == t) then acc else acc ++ [(t, split_tokens t)]

def parsedAux (acc : List (String × String)) : List String → List (String × String)
  | [] => acc
  | t :: ts => parsedAux (insertTarget acc t) ts

/-- The `parsed_targets` dict of `fuzzy_search` (build.py line 121), as an
insertion-ordered association list. -/
def parsedTargets (targets : List String) : List (String × String) :=
  parsedAux [] targets

/-- The diagnostic line printed by `fuzzy_search` for a low-confidence
match. -/
def logMsg (target value : String) (score : Nat) : String :=
  "Found " ++ target ++ " for input " ++ value ++ " (score: " ++ toString score ++ ")"

/-- The query loop of `fuzzy_search` (build.py lines 123-133).  Each query is
tokenized and resolved with `extractOne`; unpacking `None` (empty candidate
dict) raises in Python and is modelled as `none`.  The result collects the
resolved names in query order together with the printed low-confidence
diagnostics. -/
def fuzzyLoop (parsed : List (String × String)) :
    List String → Option (List String × List String)
  | [] => some ([], [])
  | v :: vs =>
    match extractOne token_sort_ratio (split_tokens v) parsed with
    | none => none
    | some (_, score, name) =>
      match fuzzyLoop parsed vs with
      | none => none
      | some (ms, logs) =>
        some (name :: ms, (if score < 95 then [logMsg name v score] else []) ++ logs)

/-- `fuzzy_search` from `build.py` (lines 120-133), returning the resolved
names (one per query, in query order) and the low-confidence diagnostics, or
`none` when a query had to be scored against an empty candidate set. -/
def fuzzy_search (targets values : List String) : Option (List String × List String) :=
  fuzzyLoop (parsedTargets targets) values

/-- The name `extractOne` resolves a query to (defaulting to `""` on an
empty candidate set, which cannot occur under the theorems' hypotheses). -/
def resolveName (targets : List String) (v : String) : String :=
  match extractOne token_sort_ratio (split_tokens v) (parsedTargets targets) with
  | some (_, _, k) => k
  | none => ""

/-- The score `extractOne` assigns to the resolved candidate. -/
def resolveScore (targets : List String) (v : String) : Nat :=
  match extractOne token_sort_ratio (split_tokens v) (parsedTargets targets) with
  | some (_, sc, _) => sc
  | none => 0

lemma extractOne_isSome (scorer : String → String → Nat) (query : String)
    (choices : List (String × String)) (h : choices ≠ []) :
    ∃ ch sc k, extractOne scorer query choices = some (ch, sc, k) := by
  cases choices with
  | nil => exact absurd rfl h
  | cons p rest =>
    obtain ⟨k, choice⟩ := p
    exact ⟨_, _, _, rfl⟩

lemma foldl_best_mem (scorer : String → String → Nat) (query : String)
    (S : List (String × String)) :
    ∀ (rest : List (String × String)) (best : String × Nat × String),
      (best.2.2, best.1) ∈ S → (∀ p ∈ rest, p ∈ S) →
      letI r := rest.foldl
        (fun best p =>
          let cand := (p.2, scorer query p.2, p.1)
          if best.2.1 < cand.2.1 then cand else best) best
      (r.2.2, r.1) ∈ S := by
  intro rest
  induction rest with
  | nil => intro best hb _; exact hb
  | cons p ps ih =>
    intro best hb hmem
    simp only [List.foldl_cons]
    by_cases hlt : best.2.1 < scorer query p.2
    · refine ih _ ?_ (fun q hq => hmem q (by simp [hq]))
      simpa [hlt] using hmem p (by simp)
    · refine ih _ ?_ (fun q hq => hmem q (by simp [hq]))
      simpa [hlt] using hb

lemma foldl_best_max (scorer : String → String → Nat) (query : String) :
    ∀ (rest : List (String × String)) (best : String × Nat × String),
      letI r := rest.foldl
        (fun best p =>
          let cand := (p.2, scorer query p.2, p.1)
          if best.2.1 < cand.2.1 then cand else best) best
      best.2.1 ≤ r.2.1 ∧ ∀ p ∈ rest, scorer query p.2 ≤ r.2.1 := by
  intro rest
  induction rest with
  | nil => intro best; exact ⟨le_refl _, by simp⟩
  | cons p ps ih =>
    intro best
    simp only [List.foldl_cons]
    by_cases hlt : best.2.1 < scorer query p.2
    · have h := ih (p.2, scorer query p.2, p.1)
      simp only [hlt, if_pos] at h ⊢
      refine ⟨le_trans (le_of_lt hlt) h.1, ?_⟩
      intro q hq
      rcases List.mem_cons.mp hq with hq | hq
      · subst hq; exact h.1
      · exact h.2 q hq
    · have h := ih best
      simp only [hlt, if_neg, ite_false] at h ⊢
      refine ⟨h.1, ?_⟩
      intro q hq
      rcases List.mem_cons.mp hq with hq | hq
      · subst hq; exact le_trans (le_of_not_lt hlt) h.1
      · exact h.2 q hq

lemma extractOne_key_mem (scorer : String → String → Nat) (query : String)
    (choices : List (String × String)) (ch : String) (sc : Nat) (k : String)
    (h : extractOne scorer query choices = some (ch, sc, k)) :
    (k, ch) ∈ choices := by
  cases choices with
  | nil => simp [extractOne] at h
  | cons p rest =>
    obtain ⟨k0, c0⟩ := p
    simp only [extractOne, Option.some.injEq] at h
    have := foldl_best_mem scorer query ((k0, c0) :: rest) rest
      (c0, scorer query c0, k0) (by simp) (fun q hq => by simp [hq])
    rw [h] at this
    exact this

lemma extractOne_score_max (scorer : String → String → Nat) (query : String)
    (choices : List (String × String)) (ch : String) (sc : Nat) (k : String)
    (h : extractOne scorer query choices = some (ch, sc, k)) :
    ∀ p ∈ choices, scorer query p.2 ≤ sc := by
  cases choices with
  | nil => simp [extractOne] at h
  | cons p0 rest =>
    obtain ⟨k0, c0⟩ := p0
    simp only [extractOne, Option.some.injEq] at h
    have := foldl_best_max scorer query rest (c0, scorer query c0, k0)
    rw [h] at this
    intro p hp
    rcases List.mem_cons.mp hp with hp | hp
    · subst hp; exact this.1
    · exact this.2 p hp

lemma insertTarget_ne_nil (acc : List (String × String)) (t : String) :
    insertTarget acc t ≠ [] := by
  rw [insertTarget]
  by_cases h : acc.any (fun p => p.1 == t)
  · cases acc with
    | nil => simp at h
    | cons p ps => simp [h]
  · simp [h]

lemma parsedAux_ne_nil (ts : List String) :
    ∀ acc, acc ≠ [] → parsedAux acc ts ≠ [] := by
  induction ts with
  | nil => intro acc h; exact h
  | cons t ts ih => intro acc _; exact ih (insertTarget acc t) (insertTarget_ne_nil acc t)

lemma parsedTargets_ne_nil (targets : List String) (h : targets ≠ []) :
    parsedTargets targets ≠ [] := by
  cases targets with
  | nil => exact absurd rfl h
  | cons t ts =>
    exact parsedAux_ne_nil ts (insertTarget [] t) (insertTarget_ne_nil [] t)

lemma parsedAux_invariant (P : String × String → Prop) (ts : List String) :
    ∀ acc, (∀ p ∈ acc, P p) → (∀ t ∈ ts, P (t, split_tokens t)) →
      ∀ p ∈ parsedAux acc ts, P p := by
  induction ts with
  | nil => intro acc hacc _ p hp; exact hacc p hp
  | cons t ts ih =>
    intro acc hacc hts p hp
    refine ih (insertTarget acc t) ?_ (fun u hu => hts u (by simp [hu])) p hp
    intro q hq
    rw [insertTarget] at hq
    by_cases h : acc.any (fun p => p.1 == t)
    · exact hacc q (by simpa [h] using hq)
    · have hq' : q ∈ acc ∨ q = (t, split_tokens t) := by simpa [h] using hq
      rcases hq' with h1 | h1
      · exact hacc q h1
      · rw [h1]
        exact hts t (by simp)

lemma parsedTargets_spec (targets : List String) :
    ∀ p ∈ parsedTargets targets, p.1 ∈ targets ∧ p.2 = split_tokens p.1 := by
  refine parsedAux_invariant _ targets [] (by simp) ?_
  intro t ht
  exact ⟨ht, rfl⟩

lemma parsedAux_mono (ts : List String) :
    ∀ acc p, p ∈ acc → p ∈ parsedAux acc ts := by
  induction ts with
  | nil => intro acc p hp; exact hp
  | cons t ts ih =>
    intro acc p hp
    refine ih (insertTarget acc t) p ?_
    rw [insertTarget]
    by_cases h : acc.any (fun q => q.1 == t)
    · simpa [h] using hp
    · simp only [h, ite_false]
      exact List.mem_append.mpr (Or.inl hp)

lemma parsedAux_covers (ts : List String) :
    ∀ acc, (∀ p ∈ acc, p.2 = split_tokens p.1) →
      ∀ t ∈ ts, (t, split_tokens t) ∈ parsedAux acc ts := by
  induction ts with
  | nil => intro acc _ t ht; simp at ht
  | cons u ts ih =>
    intro acc hacc t ht
    have hacc' : ∀ p ∈ insertTarget acc u, p.2 = split_tokens p.1 := by
      intro p hp
      rw [insertTarget] at hp
      by_cases h : acc.any (fun q => q.1 == u)
      · exact hacc p (by simpa [h] using hp)
      · have hp' : p ∈ acc ∨ p = (u, split_tokens u) := by simpa [h] using hp
        rcases hp' with h1 | h1
        · exact hacc p h1
        · rw [h1]
    rcases List.mem_cons.mp ht with ht | ht
    · subst ht
      refine parsedAux_mono ts (insertTarget acc t) _ ?_
      rw [insertTarget]
      by_cases h : acc.any (fun q => q.1 == t)
      · rcases List.any_eq_true.mp h with ⟨q, hq, hqt⟩
        have hq1 : q.1 = t := by simpa using hqt
        have : q = (t, split_tokens t) := by
          have := hacc q hq
          rw [Prod.ext_iff]
          exact ⟨hq1, by rw [this, hq1]⟩
        simp only [h, ite_true]
        rw [← this]
        exact hq
      · simp only [h, ite_false]
        exact List.mem_append.mpr (Or.inr (by simp))
    · exact ih (insertTarget acc u) hacc' t ht

lemma parsedTargets_covers (targets : List String) :
    ∀ t ∈ targets, (t, split_tokens t) ∈ parsedTargets targets :=
  parsedAux_covers targets [] (by simp)

/-- Structure of the query loop when the candidate dict is non-empty: it
returns the resolved name of every query in order, plus one diagnostic per
low-confidence query, in query order. -/
lemma fuzzy_search_eq (targets : List String) (h : targets ≠ []) (values : List String) :
    fuzzy_search targets values =
      some (values.map (resolveName targets),
        values.filterMap (fun v =>
          if resolveScore targets v < 95 then
            some (logMsg (resolveName targets v) v (resolveScore targets v))
          else none)) := by
  rw [fuzzy_search]
  induction values with
  | nil => rfl
  | cons v vs ih =>
    obtain ⟨ch, sc, k, hex⟩ := extractOne_isSome token_sort_ratio (split_tokens v)
      (parsedTargets targets) (parsedTargets_ne_nil targets h)
    have hname : resolveName targets v = k := by rw [resolveName, hex]
    have hscore : resolveScore targets v = sc := by rw [resolveScore, hex]
    rw [fuzzyLoop, hex, ih]
    simp only [List.map_cons, List.filterMap_cons, hname, hscore]
    by_cases hlow : sc < 95
    · simp [hlow]
    · simp [hlow]

/-- C1: for every non-empty list of target strings and every list of query
strings, `fuzzy_search` succeeds and returns exactly one resolved name per
query, in the same order as the input queries (the i-th result resolves the
i-th query), and every resolved name is a member of the targets list. -/
theorem fuzzy_search_total (targets values : List String) (h : targets ≠ []) :
    ∃ ms logs, fuzzy_search targets values = some (ms, logs) ∧
      ms.length = values.length ∧
      ms = values.map (resolveName targets) ∧
      ∀ m ∈ ms, m ∈ targets := by
  refine ⟨values.map (resolveName targets), _, fuzzy_search_eq targets h values,
    by simp, rfl, ?_⟩
  intro m hm
  rcases List.mem_map.mp hm with ⟨v, _, hv⟩
  obtain ⟨ch, sc, k, hex⟩ := extractOne_isSome token_sort_ratio (split_tokens v)
    (parsedTargets targets) (parsedTargets_ne_nil targets h)
  have hname : resolveName targets v = k := by rw [resolveName, hex]
  have hk : (k, ch) ∈ parsedTargets targets :=
    extractOne_key_mem _ _ _ _ _ _ hex
  have := (parsedTargets_spec targets (k, ch) hk).1
  rw [← hv, hname]
  exact this

theorem fuzzy_search_total_witness :
    (["TangentArc"] : List String) ≠ [] ∧
    (∃ ms logs, fuzzy_search ["TangentArc"] ["tanAr"] = some (ms, logs) ∧
      ms.length = (["tanAr"] : List String).length ∧
      ms = (["tanAr"] : List String).map (resolveName ["TangentArc"]) ∧
      ∀ m ∈ ms, m ∈ (["TangentArc"] : List String)) :=
  ⟨by decide, fuzzy_search_total ["TangentArc"] ["tanAr"] (by decide)⟩

/-- C6: for every query whose best candidate score is below the confidence
threshold of 95, `fuzzy_search` still resolves every query to its
best-scoring candidate (the result list is the map of `resolveName`, whose
score bounds every candidate's score from above) and only emits a diagnostic
message for the low-confidence query; resolution never fails solely because
of a low-confidence match. -/
theorem fuzzy_search_low_confidence (targets values : List String) (v : String)
    (h : targets ≠ []) (hv : v ∈ values) (hlow : resolveScore targets v < 95) :
    ∃ ms logs, fuzzy_search targets values = some (ms, logs) ∧
      ms = values.map (resolveName targets) ∧
      resolveName targets v ∈ ms ∧
      (∀ t ∈ targets,
        token_sort_ratio (split_tokens v) (split_tokens t) ≤ resolveScore targets v) ∧
      logMsg (resolveName targets v) v (resolveScore targets v) ∈ logs := by
  refine ⟨values.map (resolveName targets), _, fuzzy_search_eq targets h values,
    rfl, List.mem_map.mpr ⟨v, hv, rfl⟩, ?_, ?_⟩
  · intro t ht
    obtain ⟨ch, sc, k, hex⟩ := extractOne_isSome token_sort_ratio (split_tokens v)
      (parsedTargets targets) (parsedTargets_ne_nil targets h)
    have hscore : resolveScore targets v = sc := by rw [resolveScore, hex]
    have hmem : (t, split_tokens t) ∈ parsedTargets targets :=
      parsedTargets_covers targets t ht
    have := extractOne_score_max _ _ _ _ _ _ hex (t, split_tokens t) hmem
    rw [hscore]
    exact this
  · refine List.mem_filterMap.mpr ⟨v, hv, ?_⟩
    rw [if_pos hlow]

theorem fuzzy_search_low_confidence_witness :
    ((["ab"] : List String) ≠ [] ∧ "xy" ∈ (["xy"] : List String) ∧
      resolveScore ["ab"] "xy" < 95) ∧
    (∃ ms logs, fuzzy_search ["ab"] ["xy"] = some (ms, logs) ∧
      ms = (["xy"] : List String).map (resolveName ["ab"]) ∧
      resolveName ["ab"] "xy" ∈ ms ∧
      (∀ t ∈ (["ab"] : List String),
        token_sort_ratio (split_tokens "xy") (split_tokens t) ≤ resolveScore ["ab"] "xy") ∧
      logMsg (resolveName ["ab"] "xy") "xy" (resolveScore ["ab"] "xy") ∈ logs) :=
  ⟨⟨by decide, by decide, by decide⟩,
    fuzzy_search_low_confidence ["ab"] ["xy"] "xy" (by decide) (by decide) (by decide)⟩

/-- C8: calling `fuzzy_search` with an empty targets list signals an error to
the caller (`extractOne` yields `None` and the unpacking raises, modelled as
`none`) whenever at least one query must be scored; it does not silently
return a result. -/
theorem fuzzy_search_empty_targets (values : List String) (h : values ≠ []) :
    fuzzy_search [] values = none := by
  cases values with
  | nil => exact absurd rfl h
  | cons v vs =>
    rw [fuzzy_search]
    have hparsed : parsedTargets ([] : List String) = [] := rfl
    rw [hparsed, fuzzyLoop]
    rfl

theorem fuzzy_search_empty_targets_witness :
    (["coinLi"] : List String) ≠ [] ∧ fuzzy_search [] ["coinLi"] = none :=
  ⟨by decide, fuzzy_search_empty_targets ["coinLi"] (by decide)⟩

end Build

/-! Planar geometry of `rc_lib/design/sketch.py`.  Per the spec's data model
a 2d point or vector is a pair of real numbers (manim stores a third
coordinate which is identically zero for sketch entities), so vectors are
embedded as `ℝ × ℝ`. -/

/-- A 2d vector or point: a pair of real numbers. -/
abbrev Vec2 : Type := ℝ × ℝ

namespace vector

/-- Euclidean dot product on `Vec2`. -/
def dot (v w : Vec2) : ℝ :=
  v.1 * w.1 + v.2 * w.2

/-- Modelled from the spec: `norm` of `rc_lib/math_utils/vector.py` (the
module is not under `src/`; §4.3 defines it as the Euclidean length). -/
noncomputable def norm (v : Vec2) : ℝ :=
  Real.sqrt (dot v v)

/-- Modelled from the spec: `normalize` of `rc_lib/math_utils/vector.py`
(§4.3: `v` scaled to unit length, undefined for a zero-length vector; the
embedding returns the zero vector there, matching manim's fallback). -/
noncomputable def normalize (v : Vec2) : Vec2 :=
  (norm v)⁻¹ • v

/-- Modelled from the spec: `direction` of `rc_lib/math_utils/vector.py`
(§4.3: the unit vector from point `a` to point `b`, `normalize (b - a)`). -/
noncomputable def direction (a b : Vec2) : Vec2 :=
  normalize (b - a)

lemma dot_self_nonneg (v : Vec2) : 0 ≤ dot v v := by
  rw [dot]
  nlinarith [sq_nonneg v.1, sq_nonneg v.2]

lemma dot_self_eq_zero_iff (v : Vec2) : dot v v = 0 ↔ v = 0 := by
  rw [dot]
  constructor
  · intro h
    have h1 : v.1 * v.1 = 0 ∧ v.2 * v.2 = 0 :=
      (add_eq_zero_iff_of_nonneg (mul_self_nonneg v.1) (mul_self_nonneg v.2)).mp h
    have := mul_self_eq_zero.mp h1.1
    have := mul_self_eq_zero.mp h1.2
    rw [Prod.ext_iff]
    constructor <;> assumption
  · intro h
    rw [h]
    norm_num

lemma norm_eq_zero_iff (v : Vec2) : norm v = 0 ↔ v = 0 := by
  rw [norm, Real.sqrt_eq_zero (dot_self_nonneg v)]
  exact dot_self_eq_zero_iff v

lemma norm_pos (v : Vec2) (h : v ≠ 0) : 0 < norm v := by
  rcases lt_or_eq_of_le (Real.sqrt_nonneg (dot v v)) with h1 | h1
  · exact h1
  · exact absurd ((norm_eq_zero_iff v).mp h1.symm) h

lemma norm_sq (v : Vec2) : norm v * norm v = dot v v := by
  rw [norm]
  exact Real.mul_self_sqrt (dot_self_nonneg v)

lemma dot_smul_left (c : ℝ) (v w : Vec2) : dot (c • v) w = c * dot v w := by
  simp only [dot, Prod.smul_fst, Prod.smul_snd, smul_eq_mul]
  ring

lemma dot_smul_right (c : ℝ) (v w : Vec2) : dot v (c • w) = c * dot v w := by
  simp only [dot, Prod.smul_fst, Prod.smul_snd, smul_eq_mul]
  ring

lemma dot_sub_left (u v w : Vec2) : dot (u - v) w = dot u w - dot v w := by
  simp only [dot, Prod.fst_sub, Prod.snd_sub]
  ring

lemma dot_comm (v w : Vec2) : dot v w = dot w v := by
  simp only [dot]
  ring

lemma norm_smul (c : ℝ) (v : Vec2) : norm (c • v) = |c| * norm v := by
  rw [norm, norm]
  have h : dot (c • v) (c • v) = c ^ 2 * dot v v := by
    rw [dot_smul_left, dot_smul_right]
    ring
  rw [h, Real.sqrt_mul (sq_nonneg c), Real.sqrt_sq_eq_abs]

lemma norm_normalize (v : Vec2) (h : v ≠ 0) : norm (normalize v) = 1 := by
  rw [normalize, norm_smul, abs_inv, abs_of_pos (norm_pos v h)]
  exact inv_mul_cancel₀ (ne_of_gt (norm_pos v h))

lemma smul_norm_normalize (v : Vec2) (h : v ≠ 0) : norm v • normalize v = v := by
  rw [normalize, smul_smul, mul_inv_cancel₀ (ne_of_gt (norm_pos v h)), one_smul]

lemma dot_normalize_self (v : Vec2) (h : v ≠ 0) :
    dot (normalize v) (normalize v) = 1 := by
  have h1 := norm_sq (normalize v)
  rw [norm_normalize v h] at h1
  linarith

end vector

/-- `ArcBase._get_circle_translation` from `rc_lib/design/sketch.py` (lines
58-60): `vec = target.get_center() - self.get_center()`, then
`normalize(vec) * (norm(vec) - self.radius - target.radius)`. -/
noncomputable def get_circle_translation (selfCenter : Vec2) (selfRadius : ℝ)
    (targetCenter : Vec2) (targetRadius : ℝ) : Vec2 :=
  let vec := targetCenter - selfCenter
  (vector.norm vec - selfRadius - targetRadius) • vector.normalize vec

lemma circle_shift (ca cb : Vec2) (ra rb : ℝ) (hc : ca ≠ cb) :
    cb - (ca + get_circle_translation ca ra cb rb)
      = ((ra + rb) * (vector.norm (cb - ca))⁻¹) • (cb - ca) := by
  have hv : cb - ca ≠ 0 := sub_ne_zero.mpr (Ne.symm hc)
  have hn : vector.norm (cb - ca) ≠ 0 := ne_of_gt (vector.norm_pos _ hv)
  have h1 : cb - (ca + get_circle_translation ca ra cb rb)
      = (cb - ca) - get_circle_translation ca ra cb rb := by
    abel
  rw [h1, get_circle_translation, vector.normalize, smul_smul]
  have h2 : (cb - ca) - ((vector.norm (cb - ca) - ra - rb) * (vector.norm (cb - ca))⁻¹) • (cb - ca)
      = (1 - (vector.norm (cb - ca) - ra - rb) * (vector.norm (cb - ca))⁻¹) • (cb - ca) := by
    rw [sub_smul, one_smul]
  rw [h2]
  congr 1
  field_simp
  ring

lemma circle_shift_dist (ca cb : Vec2) (ra rb : ℝ) (hc : ca ≠ cb)
    (hra : 0 < ra) (hrb : 0 < rb) :
    vector.norm (cb - (ca + get_circle_translation ca ra cb rb)) = ra + rb := by
  have hv : cb - ca ≠ 0 := sub_ne_zero.mpr (Ne.symm hc)
  have hn : 0 < vector.norm (cb - ca) := vector.norm_pos _ hv
  rw [circle_shift ca cb ra rb hc, vector.norm_smul]
  have habs : |(ra + rb) * (vector.norm (cb - ca))⁻¹|
      = (ra + rb) * (vector.norm (cb - ca))⁻¹ := by
    apply abs_of_pos
    positivity
  rw [habs]
  field_simp

lemma norm_x_axis (x : ℝ) : vector.norm (x, 0) = |x| := by
  rw [vector.norm, vector.dot]
  simp only [mul_zero, add_zero]
  rw [show (x * x : ℝ) = x ^ 2 by ring, Real.sqrt_sq_eq_abs]

lemma example_translation_norm :
    vector.norm (get_circle_translation ((0 : ℝ), (0 : ℝ)) 1 ((10 : ℝ), (0 : ℝ)) 2) = 7 := by
  have hv : (((10 : ℝ), (0 : ℝ)) : Vec2) - ((0 : ℝ), (0 : ℝ)) = ((10 : ℝ), (0 : ℝ)) := by
    rw [Prod.ext_iff]
    norm_num
  have hne : (((10 : ℝ), (0 : ℝ)) : Vec2) ≠ 0 := by
    simp [Prod.ext_iff]
  rw [get_circle_translation]
  simp only [hv]
  rw [vector.norm_smul, vector.norm_normalize _ hne, norm_x_axis]
  norm_num

/-- C2: for two circles with distinct centers and positive radii, the
translation computed by `_get_circle_translation` equals
`normalize(center_b - center_a) * (norm(center_b - center_a) - radius_a -
radius_b)`, after shifting the moving circle's center by it the distance
between the two centers equals `radius_a + radius_b` exactly, and in
particular for radii 1 and 2 with centers 10 apart along the x-axis the
translation magnitude is 7. -/
theorem circle_translation_tangent (ca cb : Vec2) (ra rb : ℝ)
    (hc : ca ≠ cb) (hra : 0 < ra) (hrb : 0 < rb) :
    get_circle_translation ca ra cb rb
      = (vector.norm (cb - ca) - ra - rb) • vector.normalize (cb - ca) ∧
    vector.norm (cb - (ca + get_circle_translation ca ra cb rb)) = ra + rb ∧
    vector.norm (get_circle_translation ((0 : ℝ), (0 : ℝ)) 1 ((10 : ℝ), (0 : ℝ)) 2) = 7 :=
  ⟨rfl, circle_shift_dist ca cb ra rb hc hra hrb, example_translation_norm⟩

theorem circle_translation_tangent_witness :
    ((((0 : ℝ), (0 : ℝ)) : Vec2) ≠ ((10 : ℝ), (0 : ℝ)) ∧ (0 : ℝ) < 1 ∧ (0 : ℝ) < 2) ∧
    (get_circle_translation ((0 : ℝ), (0 : ℝ)) 1 ((10 : ℝ), (0 : ℝ)) 2
        = (vector.norm ((((10 : ℝ), (0 : ℝ)) : Vec2) - ((0 : ℝ), (0 : ℝ))) - 1 - 2) •
          vector.normalize ((((10 : ℝ), (0 : ℝ)) : Vec2) - ((0 : ℝ), (0 : ℝ))) ∧
      vector.norm ((((10 : ℝ), (0 : ℝ)) : Vec2) -
        (((0 : ℝ), (0 : ℝ)) + get_circle_translation ((0 : ℝ), (0 : ℝ)) 1 ((10 : ℝ), (0 : ℝ)) 2)) = 1 + 2 ∧
      vector.norm (get_circle_translation ((0 : ℝ), (0 : ℝ)) 1 ((10 : ℝ), (0 : ℝ)) 2) = 7) :=
  ⟨⟨by simp [Prod.ext_iff], by norm_num, by norm_num⟩,
    circle_translation_tangent ((0 : ℝ), (0 : ℝ)) ((10 : ℝ), (0 : ℝ)) 1 2
      (by simp [Prod.ext_iff]) (by norm_num) (by norm_num)⟩

/-- C7: applying the tangent translation computed by
`_get_circle_translation` to the moving circle and recomputing the
translation for the moved circle against the same target yields a
translation of magnitude zero: the tangent configuration is a fixed point of
the computation. -/
theorem circle_translation_fixed_point (ca cb : Vec2) (ra rb : ℝ)
    (hc : ca ≠ cb) (hra : 0 < ra) (hrb : 0 < rb) :
    vector.norm
      (get_circle_translation (ca + get_circle_translation ca ra cb rb) ra cb rb) = 0 := by
  have hdist : vector.norm (cb - (ca + get_circle_translation ca ra cb rb)) = ra + rb :=
    circle_shift_dist ca cb ra rb hc hra hrb
  set ca' := ca + get_circle_translation ca ra cb rb with hca'
  have hstep : get_circle_translation ca' ra cb rb
      = (vector.norm (cb - ca') - ra - rb) • vector.normalize (cb - ca') := rfl
  rw [hstep, hdist]
  have hz : (ra + rb - ra - rb : ℝ) = 0 := by ring
  rw [hz, zero_smul]
  rw [show ((0 : Vec2) = ((0 : ℝ), (0 : ℝ))) from rfl, norm_x_axis]
  norm_num

theorem circle_translation_fixed_point_witness :
    ((((0 : ℝ), (0 : ℝ)) : Vec2) ≠ ((10 : ℝ), (0 : ℝ)) ∧ (0 : ℝ) < 1 ∧ (0 : ℝ) < 2) ∧
    vector.norm
      (get_circle_translation
        (((0 : ℝ), (0 : ℝ)) + get_circle_translation ((0 : ℝ), (0 : ℝ)) 1 ((10 : ℝ), (0 : ℝ)) 2)
        1 ((10 : ℝ), (0 : ℝ)) 2) = 0 :=
  ⟨⟨by simp [Prod.ext_iff], by norm_num, by norm_num⟩,
    circle_translation_fixed_point ((0 : ℝ), (0 : ℝ)) ((10 : ℝ), (0 : ℝ)) 1 2
      (by simp [Prod.ext_iff]) (by norm_num) (by norm_num)⟩

/-- Models manim's `Line.get_projection(point)` (an external collaborator of
`Line._get_line_translation`): the orthogonal projection of `point` onto the
infinite line through `lineStart` and `lineEnd`,
`start + dot(point - start, unit) * unit` with `unit` the unit direction of
the line. -/
noncomputable def get_projection (lineStart lineEnd point : Vec2) : Vec2 :=
  let unitDir := vector.normalize (lineEnd - lineStart)
  lineStart + (vector.dot (point - lineStart) unitDir) • unitDir

/-- `Line._get_line_translation` from `rc_lib/design/sketch.py` (lines
188-192): `projection = self.get_projection(target.get_center())`, then
`direction(projection, center) * (norm(center - projection) - radius)`. -/
noncomputable def get_line_translation (lineStart lineEnd : Vec2)
    (targetCenter : Vec2) (targetRadius : ℝ) : Vec2 :=
  let projection := get_projection lineStart lineEnd targetCenter
  (vector.norm (targetCenter - projection) - targetRadius) •
    vector.direction projection targetCenter

lemma dot_projection_residual (s e c : Vec2) (hse : s ≠ e) :
    vector.dot (c - get_projection s e c) (vector.normalize (e - s)) = 0 := by
  have hv : e - s ≠ 0 := sub_ne_zero.mpr (Ne.symm hse)
  set u := vector.normalize (e - s) with hu
  have huu : vector.dot u u = 1 := vector.dot_normalize_self _ hv
  have h1 : c - get_projection s e c = (c - s) - (vector.dot (c - s) u) • u := by
    rw [get_projection]
    simp only [← hu]
    abel
  rw [h1, vector.dot_sub_left, vector.dot_smul_left, huu]
  ring

/-- C4: for a non-degenerate line and a circle whose center does not lie on
the line, the translation computed by `_get_line_translation` is a scalar
multiple of the vector from the projection of the circle's center onto the
line to the center (hence perpendicular to the line), and after shifting the
line by this translation the perpendicular distance from the circle's center
to the line equals the circle's radius. -/
theorem line_translation_tangent (s e c : Vec2) (r : ℝ)
    (hse : s ≠ e) (hc : c ≠ get_projection s e c) (hr : 0 < r) :
    (∃ k : ℝ, get_line_translation s e c r = k • (c - get_projection s e c)) ∧
    vector.dot (get_line_translation s e c r) (e - s) = 0 ∧
    vector.norm (c - get_projection (s + get_line_translation s e c r)
      (e + get_line_translation s e c r) c) = r := by
  have hv : e - s ≠ 0 := sub_ne_zero.mpr (Ne.symm hse)
  set u := vector.normalize (e - s) with hu
  set w := c - get_projection s e c with hw
  have hwne : w ≠ 0 := sub_ne_zero.mpr hc
  have hnw : 0 < vector.norm w := vector.norm_pos _ hwne
  have hwu : vector.dot w u = 0 := dot_projection_residual s e c hse
  have ht : get_line_translation s e c r
      = ((vector.norm w - r) * (vector.norm w)⁻¹) • w := by
    rw [get_line_translation]
    simp only [← hw]
    rw [vector.direction, vector.normalize, smul_smul]
  set k := (vector.norm w - r) * (vector.norm w)⁻¹ with hk
  refine ⟨⟨k, ht⟩, ?_, ?_⟩
  · rw [ht]
    have hes : e - s = vector.norm (e - s) • u := (vector.smul_norm_normalize _ hv).symm
    rw [hes, vector.dot_smul_left, vector.dot_smul_right, hwu]
    ring
  · have htu : vector.dot (get_line_translation s e c r) u = 0 := by
      rw [ht, vector.dot_smul_left, hwu]
      ring
    set t := get_line_translation s e c r with hteq
    have hshiftdir : (e + t) - (s + t) = e - s := by abel
    have hproj : get_projection (s + t) (e + t) c = get_projection s e c + t := by
      rw [get_projection, get_projection]
      simp only [hshiftdir, ← hu]
      have hsplit : c - (s + t) = (c - s) - t := by abel
      rw [hsplit, vector.dot_sub_left, htu, sub_zero]
      abel
    rw [hproj]
    have hres : c - (get_projection s e c + t) = w - t := by
      rw [hw]
      abel
    rw [hres, ht]
    have hcol : w - k • w = (1 - k) • w := by
      rw [sub_smul, one_smul]
    rw [hcol]
    have hkval : (1 - k) = r * (vector.norm w)⁻¹ := by
      rw [hk]
      field_simp
    rw [hkval, vector.norm_smul]
    have habs : |r * (vector.norm w)⁻¹| = r * (vector.norm w)⁻¹ := by
      apply abs_of_pos
      positivity
    rw [habs]
    field_simp

lemma proj_example :
    get_projection ((0 : ℝ), (0 : ℝ)) ((1 : ℝ), (0 : ℝ)) ((0 : ℝ), (5 : ℝ)) = ((0 : ℝ), (0 : ℝ)) := by
  have h1 : (((1 : ℝ), (0 : ℝ)) : Vec2) - ((0 : ℝ), (0 : ℝ)) = ((1 : ℝ), (0 : ℝ)) := by
    rw [Prod.ext_iff]
    norm_num
  simp only [get_projection, h1]
  have hn : vector.norm (((1 : ℝ), (0 : ℝ)) : Vec2) = 1 := by
    rw [norm_x_axis]
    norm_num
  have hu : vector.normalize (((1 : ℝ), (0 : ℝ)) : Vec2) = ((1 : ℝ), (0 : ℝ)) := by
    rw [vector.normalize, hn]
    norm_num
  rw [hu]
  have hd : vector.dot ((((0 : ℝ), (5 : ℝ)) : Vec2) - ((0 : ℝ), (0 : ℝ))) ((1 : ℝ), (0 : ℝ)) = 0 := by
    rw [vector.dot]
    norm_num
  rw [hd, zero_smul, add_zero]

theorem line_translation_tangent_witness :
    ((((0 : ℝ), (0 : ℝ)) : Vec2) ≠ ((1 : ℝ), (0 : ℝ)) ∧
      (((0 : ℝ), (5 : ℝ)) : Vec2) ≠ get_projection ((0 : ℝ), (0 : ℝ)) ((1 : ℝ), (0 : ℝ)) ((0 : ℝ), (5 : ℝ)) ∧
      (0 : ℝ) < 1) ∧
    ((∃ k : ℝ, get_line_translation ((0 : ℝ), (0 : ℝ)) ((1 : ℝ), (0 : ℝ)) ((0 : ℝ), (5 : ℝ)) 1
        = k • ((((0 : ℝ), (5 : ℝ)) : Vec2) -
            get_projection ((0 : ℝ), (0 : ℝ)) ((1 : ℝ), (0 : ℝ)) ((0 : ℝ), (5 : ℝ)))) ∧
      vector.dot (get_line_translation ((0 : ℝ), (0 : ℝ)) ((1 : ℝ), (0 : ℝ)) ((0 : ℝ), (5 : ℝ)) 1)
        ((((1 : ℝ), (0 : ℝ)) : Vec2) - ((0 : ℝ), (0 : ℝ))) = 0 ∧
      vector.norm ((((0 : ℝ), (5 : ℝ)) : Vec2) - get_projection
        (((0 : ℝ), (0 : ℝ)) + get_line_translation ((0 : ℝ), (0 : ℝ)) ((1 : ℝ), (0 : ℝ)) ((0 : ℝ), (5 : ℝ)) 1)
        (((1 : ℝ), (0 : ℝ)) + get_line_translation ((0 : ℝ), (0 : ℝ)) ((1 : ℝ), (0 : ℝ)) ((0 : ℝ), (5 : ℝ)) 1)
        ((0 : ℝ), (5 : ℝ))) = 1) :=
  ⟨⟨by simp [Prod.ext_iff], by rw [proj_example]; simp [Prod.ext_iff], by norm_num⟩,
    line_translation_tangent ((0 : ℝ), (0 : ℝ)) ((1 : ℝ), (0 : ℝ)) ((0 : ℝ), (5 : ℝ)) 1
      (by simp [Prod.ext_iff]) (by rw [proj_example]; simp [Prod.ext_iff]) (by norm_num)⟩

namespace Constraint

/-- Outcome of `Midpoint.__new__` from `rc_lib/design/constraint.py`: either
dispatch to `ConstraintBase.__new__` with the computed `base_index`, or a
raised `ValueError` carrying its message. -/
inductive MidpointOutcome where
  | dispatch (base_index : Nat)
  | valueError (msg : String)
deriving DecidableEq

/-- Models `Midpoint.__new__` (constraint.py lines 104-112): with exactly one
mobject after the base, the base index is 0; with exactly two it is 1; any
other count raises `ValueError("Expected a line or two points.")` before any
dispatch happens. -/
def midpointNew {α : Type} (args : List α) : MidpointOutcome :=
  if args.length = 1 then MidpointOutcome.dispatch 0
  else if args.length = 2 then MidpointOutcome.dispatch 1
  else MidpointOutcome.valueError "Expected a line or two points."

/-- C10: constructing a Midpoint constraint raises
`ValueError("Expected a line or two points.")` exactly when the number of
mobjects passed after the base is neither one nor two; with exactly one or
two mobjects it proceeds to dispatch (with base index 0 resp. 1) without
raising that error. -/
theorem midpoint_arg_check {α : Type} (args : List α) :
    (midpointNew args = MidpointOutcome.valueError "Expected a line or two points."
      ↔ args.length ≠ 1 ∧ args.length ≠ 2) ∧
    (args.length = 1 → midpointNew args = MidpointOutcome.dispatch 0) ∧
    (args.length = 2 → midpointNew args = MidpointOutcome.dispatch 1) := by
  by_cases h1 : args.length = 1
  · simp [midpointNew, h1]
  · by_cases h2 : args.length = 2
    · simp [midpointNew, h1, h2]
    · simp [midpointNew, h1, h2]

theorem midpoint_arg_check_witness :
    (midpointNew ([(), (), ()] : List Unit)
        = MidpointOutcome.valueError "Expected a line or two points."
      ↔ ([(), (), ()] : List Unit).length ≠ 1 ∧ ([(), (), ()] : List Unit).length ≠ 2) ∧
    (([(), (), ()] : List Unit).length = 1 →
      midpointNew ([(), (), ()] : List Unit) = MidpointOutcome.dispatch 0) ∧
    (([(), (), ()] : List Unit).length = 2 →
      midpointNew ([(), (), ()] : List Unit) = MidpointOutcome.dispatch 1) :=
  midpoint_arg_check ([(), (), ()] : List Unit)

end Constraint

